import Mathlib

/-!
Verification of the graph-construction pipeline of
`tensorboard/plugins/graph/tf_graph_common/graph.ts`.

The TypeScript source is shallowly embedded below.  Modelling conventions:

* JavaScript objects used as dictionaries (`{[key: string]: T}`) are modelled
  as association lists in key-insertion order (`StrMap`).  Assigning to an
  existing key keeps its position and replaces the value; assigning a fresh
  key appends it, which matches JavaScript's enumeration order for
  non-integral string keys.
* Strings are compared and indexed by code points (Lean `Char`); JavaScript
  compares UTF-16 code units, which agrees on all basic-plane text.
* Regular expressions that classify embedding node types
  (`getEmbedPredicate`) are abstracted as Boolean matchers on the op string;
  every concrete regex list instantiates such a matcher list.
* The data shapes of `proto.ts` and `common.ts` are not part of this
  repository slice; they are modelled from their use sites in `graph.ts`
  and, where noted, from the specification.
-/

/-- Association-list map with JavaScript object-assignment semantics. -/
abbrev StrMap (α : Type) := List (String × α)

/-- Dictionary lookup: value stored under `key`, if present. -/
def findVal? {α : Type} : StrMap α → String → Option α
  | [], _ => none
  | (k, v) :: rest, key => if k = key then some v else findVal? rest key

/-- JavaScript `key in obj` test. -/
def containsKey {α : Type} (m : StrMap α) (key : String) : Bool :=
  (findVal? m key).isSome

/-- JavaScript `obj[key] = val`: replaces in place, or appends a new key. -/
def insertKey {α : Type} : StrMap α → String → α → StrMap α
  | [], key, val => [(key, val)]
  | (k, v) :: rest, key, val =>
    if k = key then (k, val) :: rest else (k, v) :: insertKey rest key val

/-- Update the value stored under `key`, if present (used for in-place
mutation of an object reached through a dictionary). -/
def modifyKey {α : Type} : StrMap α → String → (α → α) → StrMap α
  | [], _, _ => []
  | (k, v) :: rest, key, f =>
    if k = key then (k, f v) :: rest else (k, v) :: modifyKey rest key f

/-- The namespace separator `NAMESPACE_DELIM = '/'` (graph.ts:25). -/
def NAMESPACE_DELIM : String := "/"

/-- Splitting a character list at every occurrence of `c`
(JavaScript `String.split`). -/
def splitOnChar (c : Char) : List Char → List (List Char)
  | [] => [[]]
  | a :: rest =>
    match splitOnChar c rest with
    | [] => [[]]
    | grp :: more => if a = c then [] :: grp :: more else (a :: grp) :: more

/-- Joining a list of strings with the namespace separator. -/
def joinDelim : List String → String
  | [] => ""
  | [x] => x
  | x :: rest => x ++ NAMESPACE_DELIM ++ joinDelim rest

/-- JavaScript `s.startsWith(p)` / lodash `_.startsWith(s, p)`. -/
def jsStartsWith (s p : String) : Bool :=
  List.isPrefixOf p.data s.data

/-- JavaScript `s.charAt(i)` (as an optional character). -/
def charAt? (s : String) (i : Nat) : Option Char :=
  s.data.get? i

/-- JavaScript string length, as a character count. -/
def jsLength (s : String) : Nat := s.data.length

/-- Splitting a node name at the namespace separator
(`name.split(NAMESPACE_DELIM)`). -/
def splitName (name : String) : List String :=
  (splitOnChar '/' name.data).map (fun l => String.mk l)

/-- Source: `getStrictName` (graph.ts:1314-1317).  Returns
`name + '/(' + lastPart + ')'` where `lastPart` is the final
`/`-separated component of `name`. -/
def getStrictName (name : String) : String :=
  let parts := splitName name
  name ++ NAMESPACE_DELIM ++ "(" ++ parts.getLastD "" ++ ")"

/-- Source: `getHierarchicalPath` (graph.ts:1408-1432) for the call sites in
this file, which never pass the optional `seriesNames` argument.  For the
name `a/b/c` it returns `['a', 'a/b', 'a/b/c']`. -/
def getHierarchicalPath (name : String) : List String :=
  let parts := splitName name
  (List.range parts.length).map (fun k => joinDelim (parts.take (k + 1)))

/-! ## Input normalization (graph.ts:922-970) -/

/-- A normalized input reference (interface `NormalizedInput`,
graph.ts:97-102). -/
structure NormalizedInput where
  name : String
  outputTensorKey : String
  isControlDependency : Bool
deriving DecidableEq, Repr

/-- A `\w` character of the `INPUT_NAME_PART_MATCHER` regex. -/
def isWordChar (c : Char) : Bool := c.isAlphanum || c = '_'

/-- Whether a character list matches `(\w+:|)\d+` exactly (the second capture
group of `INPUT_NAME_PART_MATCHER`, graph.ts:927): either a nonempty digit
run, or a nonempty word-character run, a colon, and a nonempty digit run. -/
def matchesTensorKey (k : List Char) : Bool :=
  (!k.isEmpty && k.all (·.isDigit)) ||
  (let w := k.takeWhile (· ≠ ':')
   match k.drop w.length with
   | ':' :: d =>
     !w.isEmpty && w.all isWordChar && !d.isEmpty && List.all d (·.isDigit)
   | _ => false)

/-- Matching `/^([^:]+):((\w+:|)\d+)$/` (`INPUT_NAME_PART_MATCHER`,
graph.ts:927).  Group 1 is the nonempty run of non-colon characters before
the first colon (the regex class `[^:]+` cannot cross a colon, so
backtracking cannot produce any other split); group 2 is the remainder,
which must match `(\w+:|)\d+`.  Returns `(name, outputTensorKey)` on a
match.  A reference with no colon at all never matches, which also covers
the source's short-circuit `inputName.includes(':')`. -/
def matchInputPart (s : List Char) : Option (String × String) :=
  let nameChars := s.takeWhile (· ≠ ':')
  match s.drop nameChars.length with
  | ':' :: keyChars =>
    if !nameChars.isEmpty && matchesTensorKey keyChars then
      some (String.mk nameChars, String.mk keyChars)
    else none
  | _ => none

/-- The parsing part of one `normalizeInputs` loop iteration
(graph.ts:942-958): strip a leading caret as the control-dependency marker,
then split the name and output-tensor key on a regex match (the key defaults
to `"0"`). -/
def parseInputName (inputName : String) : NormalizedInput :=
  let isControlDependency := charAt? inputName 0 = some '^'
  let stripped := if isControlDependency then inputName.data.drop 1 else inputName.data
  match matchInputPart stripped with
  | some nk =>
    { name := nk.1, outputTensorKey := nk.2, isControlDependency := isControlDependency }
  | none =>
    { name := String.mk stripped, outputTensorKey := "0",
      isControlDependency := isControlDependency }

/-- The loop of `normalizeInputs` (graph.ts:939-970); `lastName` is the
running resolved name of the most recently emitted entry (`null` before the
first), and an entry is emitted only when its resolved name differs from
it. -/
def normalizeInputsAux (lastName : Option String) : List String → List NormalizedInput
  | [] => []
  | inputName :: rest =>
    let entry := parseInputName inputName
    if lastName ≠ some entry.name then
      entry :: normalizeInputsAux (some entry.name) rest
    else
      normalizeInputsAux lastName rest

/-- Source: `normalizeInputs` (graph.ts:939-970).  Strips a leading caret as
the control-dependency marker, splits a `name:slot` suffix, and collapses
consecutive references that resolve to the same source name. -/
def normalizeInputs (inputs : List String) : List NormalizedInput :=
  normalizeInputsAux none inputs

/-! ## Strict-hierarchy disambiguation (graph.ts:1318-1376) -/

/-- The inner `j` loop of `mapStrictHierarchy` (graph.ts:1355-1365): scan
forward from `a` through the sorted tail while names still start with `a`;
report a collision when some such name continues with the namespace
separator right after `a`. -/
def strictCheck (a : String) : List String → Bool
  | [] => false
  | b :: more =>
    if jsStartsWith b a then
      if jsLength b > jsLength a && charAt? b (jsLength a) = some NAMESPACE_DELIM.front then
        true
      else strictCheck a more
    else false

/-- Adding one name to the namespace set (`namespaceSet[ns] = true`). -/
def addNamespace (set : List String) (ns : String) : List String :=
  if set.contains ns then set else set ++ [ns]

/-- The main loop of `mapStrictHierarchy` (graph.ts:1348-1366) over the
sorted name list: each iteration handles the head `a` of the remaining list
provided the remainder is nonempty (`i < nodeNames.length - 1`), records all
proper namespaces of `a`, and renames `a` when `strictCheck` finds a
collision in the sorted tail. -/
def strictMainLoop : List String → StrMap String → List String → StrMap String × List String
  | [], dict, nsSet => (dict, nsSet)
  | [_], dict, nsSet => (dict, nsSet)
  | a :: b :: more, dict, nsSet =>
    let nsSet := ((getHierarchicalPath a).dropLast).foldl addNamespace nsSet
    let dict := if strictCheck a (b :: more) then insertKey dict a (getStrictName a) else dict
    strictMainLoop (b :: more) dict nsSet

/-- Lexicographic order on character lists (JavaScript's default string
comparison; code points and UTF-16 code units agree on basic-plane text). -/
def charListLt : List Char → List Char → Bool
  | [], [] => false
  | [], _ :: _ => true
  | _ :: _, [] => false
  | a :: as, b :: bs =>
    if a.toNat < b.toNat then true
    else if b.toNat < a.toNat then false
    else charListLt as bs

/-- JavaScript `a < b` on strings. -/
def jsStrLt (a b : String) : Bool := charListLt a.data b.data

/-- Stable insertion into a sorted string list (models the effect of
JavaScript `Array.prototype.sort` with the default lexicographic
comparator; equal strings are indistinguishable, so any correct sort
produces the same list). -/
def insertSortedStr (s : String) : List String → List String
  | [] => [s]
  | b :: rest => if jsStrLt s b then s :: b :: rest else b :: insertSortedStr s rest

/-- Lexicographic sort of a string list (`nodeNames.sort()`,
graph.ts:1346). -/
def sortStrings (l : List String) : List String :=
  l.foldl (fun acc s => insertSortedStr s acc) []

/-- Source: `mapStrictHierarchy` (graph.ts:1331-1376).  Sorts the main node
names, renames every name that is also a namespace of a later main node to
its strict name, and then renames every embedding node name that collides
with a namespace discovered during the scan. -/
def mapStrictHierarchy (nodeNames embeddingNodeNames : List String) :
    StrMap String :=
  let sorted := sortStrings nodeNames
  let scanned := strictMainLoop sorted [] []
  embeddingNodeNames.foldl
    (fun d embeddingName =>
      if scanned.2.contains embeddingName then
        insertKey d embeddingName (getStrictName embeddingName)
      else d)
    scanned.1

/-! ## Node data model (graph.ts:97-453, proto shapes from their use sites) -/

/-- One dimension of a tensor-shape attribute; `size` may be absent
(`dim[0].size == null` marks a scalar in `extractOutputShapes`). -/
structure DimProto where
  size : Option Int := none
deriving DecidableEq, Repr

/-- One entry of the `_output_shapes` attribute's shape list. -/
structure ShapeProto where
  unknown_rank : Bool := false
  dim : Option (List DimProto) := none
deriving DecidableEq, Repr

/-- The dynamically-typed attribute value object, restricted to the fields
read by this file: `value.list.shape` (for `_output_shapes`), `value['s']`
(for `_XlaCluster`), and `value.type` (written for synthesized function
input args). -/
structure AttrValue where
  listShape : Option (List ShapeProto) := none
  s : Option String := none
  type : Option Int := none
deriving DecidableEq, Repr

/-- One `(key, value)` attribute pair of a raw node. -/
structure AttrEntry where
  key : String
  value : AttrValue := {}
deriving DecidableEq, Repr

/-- A tensor shape as stored on an op node: `none` entries are dimensions of
unknown size (`-1` sentinels keep their literal value from the proto). -/
abbrev TensorShape := List (Option Int)

/-- Modelled from the spec: a raw node record (`tf_graph_proto.NodeDef`;
`proto.ts` is not part of this repository slice).  Per the spec (§3): name,
operation type, device string, list of raw input references, list of
(key, value) attribute pairs.  The source occasionally receives `input` as a
single string and wraps it into an array (graph.ts:1163-1165); `input` is
modelled as a list outright. -/
structure RawNode where
  name : String
  op : String := ""
  device : String := ""
  input : List String := []
  attr : List AttrEntry := []
deriving DecidableEq, Repr

/-- The attribute key `OUTPUT_SHAPES_KEY` (graph.ts:66). -/
def OUTPUT_SHAPES_KEY : String := "_output_shapes"

/-- The attribute key `_XLA_CLUSTER_KEY` (graph.ts:68). -/
def XLA_CLUSTER_KEY : String := "_XlaCluster"

/-- The per-shape mapping inside `extractOutputShapes` (graph.ts:867-886):
unknown rank maps to `none`; a missing `dim` list, or a single dimension of
absent size, marks a scalar `[]`; otherwise each dimension size is kept. -/
def shapeOfProto (shape : ShapeProto) : Option TensorShape :=
  if shape.unknown_rank then none
  else
    match shape.dim with
    | none => some []
    | some [d] => if d.size = none then some [] else some [d.size]
    | some dims => some (dims.map (fun d => d.size))

/-- Source: `extractOutputShapes` (graph.ts:846-896).  Scans for the first
`_output_shapes` attribute; if its value lacks a shape list, returns `none`
with the attribute list untouched; otherwise maps the shapes and splices the
consumed entry out of the attribute list (the source mutates `attr` in
place, so the spliced list is returned alongside the result). -/
def extractOutputShapes :
    List AttrEntry → Option (List (Option TensorShape)) × List AttrEntry
  | [] => (none, [])
  | e :: rest =>
    if e.key = OUTPUT_SHAPES_KEY then
      match e.value.listShape with
      | none => (none, e :: rest)
      | some shapes => (some (shapes.map shapeOfProto), rest)
    else
      let (res, rest') := extractOutputShapes rest
      (res, e :: rest')

/-- Source: `extractXlaCluster` (graph.ts:904-920).  The first `_XlaCluster`
attribute's `s` field, with a falsy (absent or empty) value mapped to
`null`. -/
def extractXlaCluster : List AttrEntry → Option String
  | [] => none
  | e :: rest =>
    if e.key = XLA_CLUSTER_KEY then
      match e.value.s with
      | some str => if str = "" then none else some str
      | none => none
    else extractXlaCluster rest

/-- Modelled from the spec: `NodeStats` lives in `common.ts`, which is not
part of this repository slice.  Per the spec (§4.6) it holds the per-slot
output tensor sizes it was constructed with and accumulates total byte
allocations and an execution-time `[start, end]` interval pair. -/
structure NodeStats where
  outputSize : Option (List (List Int))
  totalBytes : Int := 0
  startTime : Option Int := none
  endTime : Option Int := none
deriving DecidableEq, Repr

/-- Modelled from the spec: accumulate a byte-allocation total. -/
def NodeStats.addBytesAllocation (st : NodeStats) (bytes : Int) : NodeStats :=
  { st with totalBytes := st.totalBytes + bytes }

/-- Modelled from the spec: record an execution-time interval pair. -/
def NodeStats.addExecutionTime (st : NodeStats) (startTime endTime : Int) :
    NodeStats :=
  { st with startTime := some startTime, endTime := some endTime }

/-- An op node (interface `OpNode` / class `OpNodeImpl`, graph.ts:159-453),
without its embedding lists (see `OpNodeFull`).  The presentation fields set
once in the constructor and never read in this slice (`type = OP`,
`isGroupNode = false`, `cardinality = 1`, `include = UNSPECIFIED`,
`owningSeries = null`, `parentNode = null`, `nodeAttributes`) are omitted. -/
structure OpNode where
  name : String
  op : String
  device : String
  attr : List AttrEntry
  inputs : List NormalizedInput
  outputShapes : Option (List (Option TensorShape))
  xlaCluster : Option String
  compatible : Bool := false
  functionInputIndex : Option Nat := none
  functionOutputIndex : Option Nat := none
  stats : Option NodeStats := none
deriving DecidableEq, Repr

/-- An op node together with its embedding lists.  In the source these two
lists are fields of every `OpNode`; a node stored inside another node's
embedding list never receives embeddings of its own in this pipeline, so the
element type is the embedding-free `OpNode`. -/
structure OpNodeFull extends OpNode where
  inEmbeddings : List OpNode := []
  outEmbeddings : List OpNode := []
deriving DecidableEq, Repr

/-- Source: the `OpNodeImpl` constructor (graph.ts:430-452): normalizes the
inputs and extracts the output shapes (splicing the consumed attribute) and
the XLA cluster. -/
def OpNodeImpl (rawNode : RawNode) : OpNode :=
  let (outputShapes, attr) := extractOutputShapes rawNode.attr
  { name := rawNode.name
    op := rawNode.op
    device := rawNode.device
    attr := attr
    inputs := normalizeInputs rawNode.input
    outputShapes := outputShapes
    xlaCluster := extractXlaCluster attr
    compatible := false }

/-- Source: interface `BaseEdge` (graph.ts:75-82). -/
structure BaseEdge where
  isControlDependency : Bool
  isReferenceEdge : Bool
  outputTensorKey : String
  v : String
  w : String
deriving DecidableEq, Repr

/-- Source: class `SlimGraph` (graph.ts:87-96). -/
structure SlimGraph where
  nodes : StrMap OpNodeFull := []
  edges : List BaseEdge := []
deriving DecidableEq, Repr

/-- Source: interface `BuildParams` (graph.ts:103-110).  The in- and out-
embedding regex pattern lists are abstracted as Boolean matchers on the op
string (`getEmbedPredicate` builds a `RegExp` per pattern and searches the
op with it); every concrete regex list instantiates such a matcher list. -/
structure BuildParams where
  enableEmbedding : Bool := true
  inEmbeddingTypes : List (String → Bool) := []
  outEmbeddingTypes : List (String → Bool) := []
  refEdges : StrMap Bool := []

/-- Source: `getEmbedPredicate` (graph.ts:1298-1309): whether any of the
type patterns matches the node's op. -/
def getEmbedPredicate (types : List (String → Bool)) (node : OpNode) : Bool :=
  types.any (fun re => re node.op)

/-- Source: `addEdgeToGraph` (graph.ts:971-993), returning the list of edges
pushed onto `graph.edges` (empty for a dropped self-loop).  The reference
flag is `params.refEdges[outputNode.op + ' ' + index] === true`. -/
def addEdgeToGraph (inputName : String) (outputNode : OpNode)
    (input : NormalizedInput) (params : BuildParams) (index : Nat) :
    List BaseEdge :=
  if inputName = outputNode.name then []
  else
    [{ isControlDependency := input.isControlDependency
       isReferenceEdge :=
         (findVal? params.refEdges (outputNode.op ++ " " ++ toString index)).getD false
       outputTensorKey := input.outputTensorKey
       v := inputName
       w := outputNode.name }]

/-! ## Phase 1 of `build`: normalizing names (graph.ts:1017-1187) -/

/-- The mutable dictionaries and arrays of the first `build` phase.  The
source's node objects are identified here by their (raw) node name:
`outEmbeddings` stores, per input source name, the names of the
out-embedding nodes depending on it, standing for the source's list of
shared object references. -/
structure BuildState where
  inEmbedding : StrMap OpNode := []
  outEmbedding : StrMap OpNode := []
  outEmbeddings : StrMap (List String) := []
  embeddingNodeNames : List String := []
  opNodes : List OpNode := []
  nodeNames : List String := []
deriving Repr

/-- Source: `processRawNode` (graph.ts:1064-1087).  Classifies the new op
node as in-embedding, out-embedding, or main node.  The source assigns to
fields of the returned node object (`functionInputIndex`,
`functionOutputIndex`, renaming its inputs) after it has been inserted;
since the inserted object is aliased, this is modelled by applying the
caller's post-assignment `post` at insertion time.  The only field read
before those assignments happen in the source is `inputs`, used to index
`outEmbeddings`: as in the source, that index is built from the
not-yet-renamed inputs. -/
def processRawNode (params : BuildParams) (post : OpNode → OpNode)
    (st : BuildState) (rawNode : RawNode) : BuildState × OpNode :=
  let opNode := OpNodeImpl rawNode
  if getEmbedPredicate params.inEmbeddingTypes opNode then
    ({ st with
        embeddingNodeNames := st.embeddingNodeNames ++ [opNode.name]
        inEmbedding := insertKey st.inEmbedding opNode.name (post opNode) },
      post opNode)
  else if getEmbedPredicate params.outEmbeddingTypes opNode then
    ({ st with
        embeddingNodeNames := st.embeddingNodeNames ++ [opNode.name]
        outEmbedding := insertKey st.outEmbedding opNode.name (post opNode)
        outEmbeddings := opNode.inputs.foldl
          (fun m input =>
            insertKey m input.name ((findVal? m input.name).getD [] ++ [opNode.name]))
          st.outEmbeddings },
      post opNode)
  else
    ({ st with
        opNodes := st.opNodes ++ [post opNode]
        nodeNames := st.nodeNames ++ [opNode.name] },
      post opNode)

/-- One declared input or output argument of a library function. -/
structure OpDefArg where
  name : String
  type : Int := 0
deriving DecidableEq, Repr

/-- The signature of a library function.  The source accepts `input_arg` /
`output_arg` both as a single object and as an array (graph.ts:1129-1135,
1151-1157) and normalizes both to the same result, so they are modelled as
lists outright. -/
structure OpDefSig where
  name : String
  input_arg : List OpDefArg := []
  output_arg : List OpDefArg := []
deriving DecidableEq, Repr

/-- A library function definition (`tf_graph_proto.FunctionDef`). -/
structure FunctionDef where
  signature : OpDefSig
  node_def : List RawNode := []
deriving DecidableEq, Repr

/-- The function library section of a graph definition. -/
structure FunctionDefLibrary where
  function : List FunctionDef := []
deriving DecidableEq, Repr

/-- A raw graph description (`tf_graph_proto.GraphDef`): the ordered raw
node list and the optional function library. -/
structure GraphDef where
  node : List RawNode
  library : Option FunctionDefLibrary := none
deriving DecidableEq, Repr

/-- The reserved function-library namespace marker,
`FUNCTION_LIBRARY_NODE_PREFIX` (graph.ts:27). -/
def functionLibraryMark : String := "__function_library__"

/-- Source: `processFunction` (graph.ts:1089-1176).  Synthesizes a node for
the function itself and one per input argument (tagged with its input
index), records output-argument indices, and processes every body node under
the function's namespace: its raw name is prefixed before processing (a
mutation of the raw graph description), its `functionOutputIndex` is set
when its name is a declared output, and its normalized inputs are prefixed
after classification (see `processRawNode` on the modelling of these
post-insertion assignments). -/
def processFunction (params : BuildParams) (st : BuildState)
    (func : FunctionDef) : BuildState :=
  let functionNodeName := functionLibraryMark ++ func.signature.name
  let st := (processRawNode params id st { name := functionNodeName }).1
  let st := (func.signature.input_arg.foldl
    (fun (acc : BuildState × Nat) arg =>
      ((processRawNode params
          (fun n => { n with functionInputIndex := some acc.2 }) acc.1
          { name := functionNodeName ++ NAMESPACE_DELIM ++ arg.name
            op := "input_arg"
            attr := [{ key := "T", value := { type := some arg.type } }] }).1,
        acc.2 + 1))
    (st, 0)).1
  let outputArgNames := (func.signature.output_arg.foldl
    (fun (acc : StrMap Nat × Nat) arg =>
      (insertKey acc.1 (functionNodeName ++ NAMESPACE_DELIM ++ arg.name) acc.2,
        acc.2 + 1))
    ([], 0)).1
  func.node_def.foldl
    (fun st rawNode =>
      let rawNode := { rawNode with name := functionNodeName ++ "/" ++ rawNode.name }
      (processRawNode params
        (fun n =>
          let n :=
            match findVal? outputArgNames rawNode.name with
            | some i => { n with functionOutputIndex := some i }
            | none => n
          { n with inputs :=
              n.inputs.map (fun inp =>
                { inp with name := functionNodeName ++ NAMESPACE_DELIM ++ inp.name }) })
        st rawNode).1)
    st

/-- The first `build` phase ('Normalizing names', graph.ts:1057-1187):
process every raw node, then every function-library definition. -/
def phase1 (graphDef : GraphDef) (params : BuildParams) : BuildState :=
  let st := graphDef.node.foldl
    (fun st raw => (processRawNode params id st raw).1) {}
  match graphDef.library with
  | some lib => lib.function.foldl (processFunction params) st
  | none => st

/-! ## Phase 2 of `build`: building the data structure (graph.ts:1188-1276) -/

/-- Name resolution through the rename dictionary:
`normalizedNameDict[name] || name`. -/
def renameWith (dict : StrMap String) (name : String) : String :=
  (findVal? dict name).getD name

/-- The per-node work of the node-adding loop (graph.ts:1200-1214): the
normalized map key, the node with its name rewritten, and the names of its
attached out-embeddings (`outEmbeddings[opNode.name]`, empty when the node
has none). -/
def nodeEntry (st : BuildState) (dict : StrMap String) (opNode : OpNode) :
    String × OpNode × List String :=
  let normalizedName := renameWith dict opNode.name
  (normalizedName, { opNode with name := normalizedName },
    (findVal? st.outEmbeddings opNode.name).getD [])

/-- The out-embedding references renamed by the node-adding loop, in loop
order: one occurrence per attachment to a main node (graph.ts:1205-1211).
The source renames the shared node object once per occurrence. -/
def outEmbRenameKeys (st : BuildState) : List String :=
  (st.opNodes.map (fun n => (findVal? st.outEmbeddings n.name).getD [])).flatten

/-- The out-embedding node store after the node-adding loop's renames
(`node.name = normalizedNameDict[node.name] || node.name`, graph.ts:1209),
applied once per attachment in loop order. -/
def outEmbStoreFinal (st : BuildState) (dict : StrMap String) : StrMap OpNode :=
  (outEmbRenameKeys st).foldl
    (fun store r => modifyKey store r (fun n => { n with name := renameWith dict n.name }))
    st.outEmbedding

/-- The in-embedding node store after the final rename pass
(graph.ts:1267-1270): every in-embedding node's name is rewritten once. -/
def inEmbStoreFinal (st : BuildState) (dict : StrMap String) : StrMap OpNode :=
  st.inEmbedding.map (fun kv => (kv.1, { kv.2 with name := renameWith dict kv.2.name }))

/-- The edge contributions of one input of one main node (the loop body at
graph.ts:1220-1265).  An input naming an in-embedding contributes one edge
per input of the embedded node (each carrying the embedded node's input
metadata); an input naming an out-embedding contributes one edge per input
of the out-embedding, each carrying the consumer's own input metadata
(`input`, not `embedInput`); otherwise the input contributes its direct
edge. -/
def edgesOfInput (st : BuildState) (params : BuildParams) (dict : StrMap String)
    (opNode : OpNode) (i : Nat) (input : NormalizedInput) : List BaseEdge :=
  match findVal? st.inEmbedding input.name with
  | some inEmbedNode =>
    (inEmbedNode.inputs.map
      (fun embedInput =>
        addEdgeToGraph (renameWith dict embedInput.name) opNode embedInput params i)).flatten
  | none =>
    match findVal? st.outEmbedding input.name with
    | some outEmbedNode =>
      (outEmbedNode.inputs.map
        (fun embedInput =>
          addEdgeToGraph (renameWith dict embedInput.name) opNode input params i)).flatten
    | none => addEdgeToGraph (renameWith dict input.name) opNode input params i

/-- All edges contributed by one main node, in input order (the node already
carries its normalized name when the edge loop runs). -/
def edgesOfNode (st : BuildState) (params : BuildParams) (dict : StrMap String)
    (opNode : OpNode) : List BaseEdge :=
  (opNode.inputs.enum.map (fun p => edgesOfInput st params dict opNode p.1 p.2)).flatten

/-- The in-embedding attachments of one main node: one reference pushed per
input that names an in-embedding (graph.ts:1222-1224), in input order. -/
def inEmbedRefsOf (st : BuildState) (opNode : OpNode) : List String :=
  opNode.inputs.filterMap
    (fun input => if containsKey st.inEmbedding input.name then some input.name else none)

/-- One finished entry of `graph.nodes`: the stored node object, observed
after all loops ran, carries its renamed embedding node lists (the lookups
always succeed; a reference to an absent store key would be dropped). -/
def materializeNode (st : BuildState) (dict : StrMap String)
    (entry : String × OpNode × List String) : String × OpNodeFull :=
  (entry.1,
    { toOpNode := entry.2.1
      inEmbeddings :=
        (inEmbedRefsOf st entry.2.1).filterMap (findVal? (inEmbStoreFinal st dict))
      outEmbeddings := entry.2.2.filterMap (findVal? (outEmbStoreFinal st dict)) })

/-- The rename dictionary computed by phase 2 (`normalizedNameDict`,
graph.ts:1194-1197). -/
def buildDict (graphDef : GraphDef) (params : BuildParams) : StrMap String :=
  mapStrictHierarchy (phase1 graphDef params).nodeNames
    (phase1 graphDef params).embeddingNodeNames

/-- Source: `build` (graph.ts:1017-1277), with the progress-tracking
wrappers dropped: phase 1 classifies the nodes, then phase 2 computes the
strict-hierarchy renames, adds every main node to the graph under its
normalized name, and materializes the edges. -/
def build (graphDef : GraphDef) (params : BuildParams) : SlimGraph :=
  let st := phase1 graphDef params
  let dict := buildDict graphDef params
  let entries := st.opNodes.map (nodeEntry st dict)
  { nodes := (entries.map (materializeNode st dict)).foldl
      (fun m kv => insertKey m kv.1 kv.2) []
    edges := (entries.map (fun e => edgesOfNode st params dict e.2.1)).flatten }

/-- The net effect of one `build` run on its raw graph description: `build`
mutates its input in place by splicing consumed `_output_shapes` attributes
out of every processed raw node (graph.ts:887-889 via the `OpNodeImpl`
constructor) and by prefixing every function body node's raw name with the
function's namespace (graph.ts:1162).  (The string-to-array wrapping of
`rawNode.input` at graph.ts:1163-1165 is subsumed by modelling `input` as a
list.)  A second `build` on the same description object therefore runs on
this mutated value. -/
def buildMutation (g : GraphDef) : GraphDef :=
  { node := g.node.map (fun r => { r with attr := (extractOutputShapes r.attr).2 })
    library := g.library.map (fun lib =>
      { function := lib.function.map (fun f =>
          { f with node_def := f.node_def.map (fun r =>
              { r with
                  name := functionLibraryMark ++ f.signature.name ++ "/" ++ r.name
                  attr := (extractOutputShapes r.attr).2 }) }) }) }

/-! ## Stats merging (graph.ts:461-533) -/

/-- Modelled from the spec: one memory-allocation record of a per-node stat
entry (`proto.ts` is not part of this repository slice). -/
structure AllocatorMemoryUsed where
  total_bytes : Int := 0
deriving DecidableEq, Repr

/-- One dimension of an output tensor description in a stat entry. -/
structure StatsDim where
  size : Int
deriving DecidableEq, Repr

/-- The shape of an output tensor description in a stat entry. -/
structure StatsShape where
  dim : List StatsDim := []
deriving DecidableEq, Repr

/-- The tensor description of one output record in a stat entry. -/
structure TensorDescription where
  shape : StatsShape
deriving DecidableEq, Repr

/-- One output record of a per-node stat entry. -/
structure NodeOutput where
  tensor_description : TensorDescription
deriving DecidableEq, Repr

/-- Modelled from the spec: one per-node record of the execution trace
(memory allocations, timing, output tensor descriptions), as read by
`joinStatsInfoWithGraph`. -/
structure NodeExecStats where
  node_name : String
  memory : Option (List AllocatorMemoryUsed) := none
  output : Option (List NodeOutput) := none
  all_start_micros : Int := 0
  all_end_rel_micros : Int := 0
deriving DecidableEq, Repr

/-- The per-device section of the execution trace. -/
structure DevStats where
  device : String
  node_stats : List NodeExecStats := []
deriving DecidableEq, Repr

/-- The execution trace (`tf_graph_proto.StepStats`). -/
structure StepStats where
  dev_stats : List DevStats := []
deriving DecidableEq, Repr

/-- Replace the stats object of a stored node. -/
def setNodeStats (n : OpNodeFull) (st : Option NodeStats) : OpNodeFull :=
  { n with toOpNode := { n.toOpNode with stats := st } }

/-- The device filter at graph.ts:474-476: a device is processed unless an
allow-set was supplied and its entry is falsy. -/
def deviceIncluded (devicesForStats : Option (StrMap Bool)) (device : String) :
    Bool :=
  match devicesForStats with
  | some ds => (findVal? ds device).getD false
  | none => true

/-- The stat-entry name resolution at graph.ts:481-484: the entry's node
name if the graph has it, else its strict name. -/
def statLookupName (g : SlimGraph) (nodeName : String) : String :=
  if containsKey g.nodes nodeName then nodeName else getStrictName nodeName

/-- The byte-allocation total of one stat entry (graph.ts:489-505): positive
allocations are summed; falsy (zero or absent) and negative ones contribute
nothing. -/
def statsTotalBytes (e : NodeExecStats) : Int :=
  (e.memory.getD []).foldl
    (fun acc alloc =>
      if alloc.total_bytes ≠ 0 then
        if alloc.total_bytes > 0 then acc + alloc.total_bytes else acc
      else acc)
    0

/-- The output-size list of one stat entry (graph.ts:506-513). -/
def statsOutputSize (e : NodeExecStats) : Option (List (List Int)) :=
  e.output.map (fun outs =>
    outs.map (fun o => o.tensor_description.shape.dim.map (fun d => d.size)))

/-- The updates applied to the matched node (graph.ts:514-530): set its
device, create its stats object if absent, add the byte total, and record
the execution interval when the reported elapsed time is truthy and
positive. -/
def statsNodeUpdate (device : String) (totalBytes : Int)
    (outputSize : Option (List (List Int))) (e : NodeExecStats)
    (node : OpNodeFull) : OpNodeFull :=
  let node := { node with toOpNode := { node.toOpNode with device := device } }
  let node :=
    if node.stats.isNone then setNodeStats node (some { outputSize := outputSize })
    else node
  let node := setNodeStats node (node.stats.map (fun s => s.addBytesAllocation totalBytes))
  if e.all_end_rel_micros ≠ 0 then
    if e.all_end_rel_micros > 0 then
      setNodeStats node (node.stats.map (fun s =>
        s.addExecutionTime e.all_start_micros
          (e.all_start_micros + e.all_end_rel_micros)))
    else node
  else node

/-- The per-entry body of `joinStatsInfoWithGraph` (graph.ts:477-531):
resolve the node (return the graph unchanged when neither the exact nor the
strict name is present) and apply the stat updates to it. -/
def processNodeStats (g : SlimGraph) (device : String) (e : NodeExecStats) :
    SlimGraph :=
  let nodeName := statLookupName g e.node_name
  if !containsKey g.nodes nodeName then g
  else
    { g with
        nodes := modifyKey g.nodes nodeName
          (statsNodeUpdate device (statsTotalBytes e) (statsOutputSize e) e) }

/-- The reset pass at graph.ts:468-471: every node's stats are cleared
before any trace entry is processed. -/
def resetGraphStats (g : SlimGraph) : SlimGraph :=
  { g with nodes := g.nodes.map (fun kv => (kv.1, setNodeStats kv.2 none)) }

/-- Source: `joinStatsInfoWithGraph` (graph.ts:461-533).  Clears all stored
stats, then folds every per-device section (skipping devices excluded by the
allow-set) and every per-node entry into the graph. -/
def joinStatsInfoWithGraph (graph : SlimGraph) (stats : StepStats)
    (devicesForStats : Option (StrMap Bool)) : SlimGraph :=
  stats.dev_stats.foldl
    (fun g devStats =>
      if deviceIncluded devicesForStats devStats.device then
        devStats.node_stats.foldl
          (fun g ns => processNodeStats g devStats.device ns) g
      else g)
    (resetGraphStats graph)

/-! ## Observation helpers and concrete scenarios used by the claim theorems -/

/-- The accumulated byte count visible on a (possibly absent) stored node:
zero when the node or its stats object is absent. -/
def statsBytes (o : Option OpNodeFull) : Int :=
  match o with
  | some node =>
    match node.stats with
    | some s => s.totalBytes
    | none => 0
  | none => 0

/-- A one-node graph used to exercise the stats merger. -/
def statsWitnessGraph : SlimGraph :=
  { nodes := [("X",
      { toOpNode :=
          { name := "X", op := "Op", device := "", attr := [], inputs := [],
            outputShapes := none, xlaCluster := none } })] }

/-- A trace entry reporting one negative memory allocation for node `X`. -/
def statsWitnessEntryNeg : NodeExecStats :=
  { node_name := "X", memory := some [{ total_bytes := -5 }] }

/-- A trace entry for a node name absent from `statsWitnessGraph`. -/
def statsWitnessEntryUnknown : NodeExecStats :=
  { node_name := "Y" }

/-- A one-node graph carrying stats from a previous merge. -/
def c10WitnessGraph : SlimGraph :=
  { nodes := [("X",
      { toOpNode :=
          { name := "X", op := "Op", device := "", attr := [], inputs := [],
            outputShapes := none, xlaCluster := none,
            stats := some { outputSize := none, totalBytes := 7 } } })] }

/-- A trace whose only entry names the absent node `Z`. -/
def c10WitnessStats : StepStats :=
  { dev_stats := [{ device := "d", node_stats := [{ node_name := "Z" }] }] }

/-- A one-node graph description carrying an `_output_shapes` attribute (the
attribute `build` consumes and splices out of its input). -/
def c9GraphDef : GraphDef :=
  { node := [
      { name := "A"
        op := "x"
        attr := [
          { key := "_output_shapes"
            value := { listShape := some [{ dim := some [{ size := some 2 }] }] } }] }] }

/-- Build parameters classifying op type `Summary` as an out-embedding and
marking the first input of `Summary` consumers as reference edges. -/
def c1Params : BuildParams :=
  { outEmbeddingTypes := [fun op => op == "Summary"]
    refEdges := [("Summary 0", true)] }

/-- The scenario of claim C1: main node `M`, out-embedding `S` consuming `M`
through a control dependency, and main node `N` consuming `S` through a
plain data input. -/
def c1GraphDef : GraphDef :=
  { node := [
      { name := "M", op := "MatMul" },
      { name := "S", op := "Summary", input := ["^M"] },
      { name := "N", op := "Op", input := ["S"] }] }

/-- The out-embedding node object of the C1 scenario as classified in
phase 1. -/
def c1SNode : OpNode :=
  { name := "S", op := "Summary", device := "", attr := [],
    inputs := [{ name := "M", outputTensorKey := "0", isControlDependency := true }],
    outputShapes := none, xlaCluster := none }

/-- The consumer node object of the C1 scenario as classified in phase 1. -/
def c1NNode : OpNode :=
  { name := "N", op := "Op", device := "", attr := [],
    inputs := [{ name := "S", outputTensorKey := "0", isControlDependency := false }],
    outputShapes := none, xlaCluster := none }

/-- The upstream main node object of the C1 scenario. -/
def c1MNode : OpNode :=
  { name := "M", op := "MatMul", device := "", attr := [], inputs := [],
    outputShapes := none, xlaCluster := none }


/-! ## Association-list lemmas -/

lemma findVal?_insertKey_self {α : Type} (m : StrMap α) (k : String) (v : α) :
    findVal? (insertKey m k v) k = some v := by
  induction m with
  | nil => simp [insertKey, findVal?]
  | cons p rest ih =>
    obtain ⟨pk, pv⟩ := p
    by_cases h : pk = k
    · simp [insertKey, h, findVal?]
    · simp [insertKey, h, findVal?, ih]

lemma findVal?_insertKey_ne {α : Type} (m : StrMap α) (k k' : String) (v : α)
    (h : k ≠ k') : findVal? (insertKey m k v) k' = findVal? m k' := by
  induction m with
  | nil => simp [insertKey, findVal?, h]
  | cons p rest ih =>
    obtain ⟨pk, pv⟩ := p
    by_cases hk : pk = k
    · subst hk
      simp [insertKey, findVal?, h]
    · simp [insertKey, hk, findVal?, ih]

lemma findVal?_modifyKey_self {α : Type} (m : StrMap α) (k : String) (f : α → α) :
    findVal? (modifyKey m k f) k = (findVal? m k).map f := by
  induction m with
  | nil => simp [modifyKey, findVal?]
  | cons p rest ih =>
    obtain ⟨pk, pv⟩ := p
    by_cases h : pk = k
    · simp [modifyKey, h, findVal?]
    · simp [modifyKey, h, findVal?, ih]

lemma findVal?_modifyKey_ne {α : Type} (m : StrMap α) (k k' : String) (f : α → α)
    (h : k ≠ k') : findVal? (modifyKey m k f) k' = findVal? m k' := by
  induction m with
  | nil => simp [modifyKey, findVal?]
  | cons p rest ih =>
    obtain ⟨pk, pv⟩ := p
    by_cases hk : pk = k
    · subst hk
      simp [modifyKey, findVal?, h]
    · simp [modifyKey, hk, findVal?, ih]

lemma containsKey_modifyKey {α : Type} (m : StrMap α) (k k' : String) (f : α → α) :
    containsKey (modifyKey m k f) k' = containsKey m k' := by
  by_cases h : k = k'
  · subst h
    simp [containsKey, findVal?_modifyKey_self]
  · simp [containsKey, findVal?_modifyKey_ne m k k' f h]

lemma findVal?_mapPairs {α β : Type} (m : StrMap α) (f : α → β) (k : String) :
    findVal? (m.map (fun kv => (kv.1, f kv.2))) k = (findVal? m k).map f := by
  induction m with
  | nil => simp [findVal?]
  | cons p rest ih =>
    obtain ⟨pk, pv⟩ := p
    by_cases h : pk = k
    · simp [findVal?, h]
    · simp [findVal?, h, ih]

lemma findVal?_foldl_insert_of_ne {α : Type} (l : List (String × α)) (k : String) :
    ∀ m : StrMap α, (∀ p ∈ l, p.1 ≠ k) →
      findVal? (l.foldl (fun acc kv => insertKey acc kv.1 kv.2) m) k = findVal? m k := by
  induction l with
  | nil => intro m _; rfl
  | cons p rest ih =>
    intro m h
    have hp : p.1 ≠ k := h p (List.mem_cons_self p rest)
    have hrest : ∀ q ∈ rest, q.1 ≠ k := fun q hq => h q (List.mem_cons_of_mem p hq)
    simp only [List.foldl_cons]
    rw [ih (insertKey m p.1 p.2) hrest, findVal?_insertKey_ne m p.1 k p.2 hp]

lemma findVal?_foldl_insert_of_mem {α : Type} (l : List (String × α))
    (k : String) (v : α) :
    ∀ m : StrMap α, (k, v) ∈ l → (l.map Prod.fst).Nodup →
      findVal? (l.foldl (fun acc kv => insertKey acc kv.1 kv.2) m) k = some v := by
  induction l with
  | nil => intro m hmem _; cases hmem
  | cons p rest ih =>
    intro m hmem hnd
    simp only [List.foldl_cons]
    rcases List.mem_cons.mp hmem with hp | hrest
    · subst hp
      have hnone : ∀ q ∈ rest, q.1 ≠ k := by
        intro q hq hqk
        exact (List.nodup_cons.mp hnd).1 (by simpa [hqk] using List.mem_map_of_mem Prod.fst hq)
      rw [findVal?_foldl_insert_of_ne rest k _ hnone, findVal?_insertKey_self]
    · exact ih (insertKey m p.1 p.2) hrest (List.nodup_cons.mp hnd).2

/-! ## Lemmas about the input normalizer -/

lemma normalizeInputsAux_head_name :
    ∀ (l : List String) (lastName : Option String) (x : NormalizedInput),
      (normalizeInputsAux lastName l).head? = some x → some x.name ≠ lastName := by
  intro l
  induction l with
  | nil => intro lastName x h; cases h
  | cons inputName rest ih =>
    intro lastName x h
    by_cases hcond : lastName ≠ some (parseInputName inputName).name
    · rw [normalizeInputsAux, if_pos hcond] at h
      cases h
      exact fun hv => hcond hv.symm
    · rw [normalizeInputsAux, if_neg hcond] at h
      exact ih lastName x h

lemma normalizeInputsAux_chain :
    ∀ (l : List String) (lastName : Option String),
      List.Chain' (fun a b : NormalizedInput => a.name ≠ b.name)
        (normalizeInputsAux lastName l) := by
  intro l
  induction l with
  | nil => intro lastName; exact List.chain'_nil
  | cons inputName rest ih =>
    intro lastName
    by_cases hcond : lastName ≠ some (parseInputName inputName).name
    · rw [normalizeInputsAux, if_pos hcond]
      refine List.chain'_cons'.mpr ⟨?_, ih (some (parseInputName inputName).name)⟩
      intro y hy
      have := normalizeInputsAux_head_name rest (some (parseInputName inputName).name) y hy
      intro hv
      exact this (by simp [hv])
    · rw [normalizeInputsAux, if_neg hcond]
      exact ih lastName

lemma chain'_get?_adjacent {α : Type} {R : α → α → Prop} :
    ∀ (l : List α), List.Chain' R l →
      ∀ (i : Nat) (a b : α), l.get? i = some a → l.get? (i + 1) = some b → R a b := by
  intro l
  induction l with
  | nil => intro _ i a b ha _; cases ha
  | cons x rest ih =>
    intro hchain i a b ha hb
    cases i with
    | zero =>
      cases ha
      cases rest with
      | nil => cases hb
      | cons y more =>
        cases hb
        exact (List.chain'_cons.mp hchain).1
    | succ j =>
      exact ih hchain.tail j a b ha hb

/-! ## Lemmas about the namespace scan of `mapStrictHierarchy` -/

lemma strContains_iff (l : List String) (x : String) :
    l.contains x = true ↔ x ∈ l := by
  induction l with
  | nil => simp
  | cons a rest ih => simp

lemma addNamespace_contains_mono (set : List String) (y x : String)
    (h : set.contains x = true) : (addNamespace set y).contains x = true := by
  unfold addNamespace
  split
  · exact h
  · exact strContains_iff _ _ |>.mpr (List.mem_append_left _ (strContains_iff _ _ |>.mp h))

lemma addNamespace_contains_self (set : List String) (y : String) :
    (addNamespace set y).contains y = true := by
  unfold addNamespace
  split
  · assumption
  · exact strContains_iff _ _ |>.mpr (List.mem_append_right _ (List.mem_singleton_self y))

lemma foldl_addNamespace_mono :
    ∀ (l : List String) (set : List String) (x : String),
      set.contains x = true → (l.foldl addNamespace set).contains x = true := by
  intro l
  induction l with
  | nil => intro set x h; exact h
  | cons a rest ih =>
    intro set x h
    exact ih (addNamespace set a) x (addNamespace_contains_mono set a x h)

lemma foldl_addNamespace_of_mem :
    ∀ (l : List String) (set : List String) (x : String),
      x ∈ l → (l.foldl addNamespace set).contains x = true := by
  intro l
  induction l with
  | nil => intro set x h; cases h
  | cons a rest ih =>
    intro set x h
    rcases List.mem_cons.mp h with rfl | hrest
    · exact foldl_addNamespace_mono rest (addNamespace set x) x
        (addNamespace_contains_self set x)
    · exact ih (addNamespace set a) x hrest

lemma strictMainLoop_ns_mono :
    ∀ (l : List String) (dict : StrMap String) (ns : List String) (x : String),
      ns.contains x = true → ((strictMainLoop l dict ns).2).contains x = true := by
  intro l
  induction l with
  | nil => intro dict ns x h; exact h
  | cons a rest ih =>
    intro dict ns x h
    cases rest with
    | nil => exact h
    | cons b more =>
      rw [strictMainLoop]
      exact ih _ _ x (foldl_addNamespace_mono _ ns x h)

lemma strictMainLoop_ns_of_mem :
    ∀ (l : List String) (dict : StrMap String) (ns : List String) (a x : String),
      a ∈ l.dropLast → x ∈ (getHierarchicalPath a).dropLast →
      ((strictMainLoop l dict ns).2).contains x = true := by
  intro l
  induction l with
  | nil => intro _ _ a x ha _; cases ha
  | cons a0 rest ih =>
    intro dict ns a x ha hx
    cases rest with
    | nil => cases ha
    | cons b more =>
      rw [List.dropLast_cons₂] at ha
      rw [strictMainLoop]
      rcases List.mem_cons.mp ha with rfl | hrest
      · exact strictMainLoop_ns_mono _ _ _ x (foldl_addNamespace_of_mem _ ns x hx)
      · exact ih _ _ a x hrest hx

lemma embedFold_preserve (nsSet : List String) :
    ∀ (l : List String) (dict : StrMap String) (E : String), E ∉ l →
      findVal?
        (l.foldl
          (fun d en =>
            if nsSet.contains en then insertKey d en (getStrictName en) else d)
          dict) E = findVal? dict E := by
  intro l
  induction l with
  | nil => intro dict E _; rfl
  | cons en rest ih =>
    intro dict E hE
    have hne : en ≠ E := fun h => hE (by simp [h])
    have hrest : E ∉ rest := fun h => hE (List.mem_cons_of_mem en h)
    simp only [List.foldl_cons]
    rw [ih _ E hrest]
    split
    · exact findVal?_insertKey_ne dict en E _ hne
    · rfl

lemma embedFold_find (nsSet : List String) :
    ∀ (l : List String) (dict : StrMap String) (E : String),
      E ∈ l → nsSet.contains E = true →
      findVal?
        (l.foldl
          (fun d en =>
            if nsSet.contains en then insertKey d en (getStrictName en) else d)
          dict) E = some (getStrictName E) := by
  intro l
  induction l with
  | nil => intro dict E h _; cases h
  | cons en rest ih =>
    intro dict E hE hns
    simp only [List.foldl_cons]
    rcases List.mem_cons.mp hE with rfl | hrest
    · by_cases hr : E ∈ rest
      · exact ih _ E hr hns
      · rw [embedFold_preserve nsSet rest _ E hr, if_pos hns, findVal?_insertKey_self]
    · exact ih _ E hrest hns

/-! ## Claims C2-C6 -/

/-- Claim C2, counterexample: with the single main node name `a/b` and the
embedding node name `a`, the embedding collides with the namespace `a`, yet
the rename dictionary has no entry for it: the namespace scan never visits
the lexicographically last main node name. -/
theorem mapStrictHierarchy_embedding_rename_counterexample :
    findVal? (mapStrictHierarchy ["a/b"] ["a"]) "a" = none := by decide

/-- Claim C2 (amended): if an embedding node name `E` is a proper namespace
(an entry of the hierarchical path below the name itself) of at least one
main node name other than the lexicographically last one, then the rename
dictionary maps `E` to its strict name. -/
theorem mapStrictHierarchy_embedding_rename_amended
    (nodeNames embeddingNodeNames : List String) (E : String)
    (hE : E ∈ embeddingNodeNames)
    (hcollide : ∃ a ∈ (sortStrings nodeNames).dropLast,
      E ∈ (getHierarchicalPath a).dropLast) :
    findVal? (mapStrictHierarchy nodeNames embeddingNodeNames) E =
      some (getStrictName E) := by
  obtain ⟨a, ha, hx⟩ := hcollide
  have hns := strictMainLoop_ns_of_mem (sortStrings nodeNames) [] [] a E ha hx
  simp only [mapStrictHierarchy]
  exact embedFold_find _ _ _ E hE hns

/-- Claim C2, witness: the embedding `a` colliding with the namespace of the
non-last main node `a/b` is renamed to `a/(a)`. -/
theorem mapStrictHierarchy_embedding_rename_witness :
    findVal? (mapStrictHierarchy ["a/b", "z"] ["a"]) "a" =
      some (getStrictName "a") :=
  mapStrictHierarchy_embedding_rename_amended ["a/b", "z"] ["a"] "a"
    (by decide) ⟨"a/b", by decide, by decide⟩

/-- Claim C3, counterexample: applying `getStrictName` twice to `a/b` does
not yield the claimed string `a/b/(b)/(( b))` (there is no space in the
doubled parenthesis group). -/
theorem getStrictName_twice_counterexample :
    getStrictName (getStrictName "a/b") ≠ "a/b/(b)/(( b))" := by decide

/-- Claim C3 (amended): `getStrictName "a/b" = "a/b/(b)"`, and applying it a
second time yields `a/b/(b)/((b))`, a string different from `a/b/(b)` - so
`getStrictName` is not idempotent. -/
theorem getStrictName_twice_amended :
    getStrictName "a/b" = "a/b/(b)" ∧
    getStrictName (getStrictName "a/b") = "a/b/(b)/((b))" ∧
    getStrictName (getStrictName "a/b") ≠ getStrictName "a/b" := by decide

/-- Claim C4: normalizing the raw input list `["^Y", "Z:2", "Z:2"]` yields
exactly the control-dependency reference to `Y` with default slot `0`
followed by the slot-2 reference to `Z`; the duplicate `Z:2` produces no
entry. -/
theorem normalizeInputs_control_dup_example :
    normalizeInputs ["^Y", "Z:2", "Z:2"] =
      [{ name := "Y", outputTensorKey := "0", isControlDependency := true },
       { name := "Z", outputTensorKey := "2", isControlDependency := false }] := by
  decide

/-- Claim C5: for every raw input list, the normalized output never contains
two adjacent entries with the same resolved source name. -/
theorem normalizeInputs_no_adjacent_duplicates
    (inputs : List String) (i : Nat) (a b : NormalizedInput)
    (ha : (normalizeInputs inputs).get? i = some a)
    (hb : (normalizeInputs inputs).get? (i + 1) = some b) :
    a.name ≠ b.name :=
  chain'_get?_adjacent _ (normalizeInputsAux_chain inputs none) i a b ha hb

/-- Claim C5, witness: the two adjacent entries produced from
`["^Y", "Z:2", "Z:2"]` have distinct names. -/
theorem normalizeInputs_no_adjacent_duplicates_witness :
    ({ name := "Y", outputTensorKey := "0", isControlDependency := true } :
        NormalizedInput).name ≠
      ({ name := "Z", outputTensorKey := "2", isControlDependency := false } :
        NormalizedInput).name :=
  normalizeInputs_no_adjacent_duplicates ["^Y", "Z:2", "Z:2"] 0
    { name := "Y", outputTensorKey := "0", isControlDependency := true }
    { name := "Z", outputTensorKey := "2", isControlDependency := false }
    (by decide) (by decide)

/-- Claim C6: on the main node set `{A, A/B}` (either input order), the
disambiguator renames `A` to `A/(A)` and leaves `A/B` untouched. -/
theorem mapStrictHierarchy_sibling_collision :
    findVal? (mapStrictHierarchy ["A", "A/B"] []) "A" = some "A/(A)" ∧
    findVal? (mapStrictHierarchy ["A", "A/B"] []) "A/B" = none ∧
    findVal? (mapStrictHierarchy ["A/B", "A"] []) "A" = some "A/(A)" ∧
    findVal? (mapStrictHierarchy ["A/B", "A"] []) "A/B" = none := by decide

/-! ## Claim C7: no self-loop edges -/

lemma ne_vw_of_mem_addEdgeToGraph {e : BaseEdge} (inputName : String)
    (outputNode : OpNode) (input : NormalizedInput) (params : BuildParams)
    (index : Nat) (hmem : e ∈ addEdgeToGraph inputName outputNode input params index) :
    e.v ≠ e.w := by
  unfold addEdgeToGraph at hmem
  split at hmem
  · cases hmem
  · rename_i hne
    rcases List.mem_singleton.mp hmem with rfl
    simpa using hne

lemma ne_vw_of_mem_edgesOfInput {e : BaseEdge} (st : BuildState)
    (params : BuildParams) (dict : StrMap String) (opNode : OpNode) (i : Nat)
    (input : NormalizedInput)
    (hmem : e ∈ edgesOfInput st params dict opNode i input) : e.v ≠ e.w := by
  unfold edgesOfInput at hmem
  cases hin : findVal? st.inEmbedding input.name with
  | some inEmbedNode =>
    rw [hin] at hmem
    obtain ⟨l, hl, hel⟩ := List.mem_flatten.mp hmem
    obtain ⟨embedInput, _, rfl⟩ := List.mem_map.mp hl
    exact ne_vw_of_mem_addEdgeToGraph _ _ _ _ _ hel
  | none =>
    rw [hin] at hmem
    cases hout : findVal? st.outEmbedding input.name with
    | some outEmbedNode =>
      rw [hout] at hmem
      obtain ⟨l, hl, hel⟩ := List.mem_flatten.mp hmem
      obtain ⟨embedInput, _, rfl⟩ := List.mem_map.mp hl
      exact ne_vw_of_mem_addEdgeToGraph _ _ _ _ _ hel
    | none =>
      rw [hout] at hmem
      exact ne_vw_of_mem_addEdgeToGraph _ _ _ _ _ hmem

lemma ne_vw_of_mem_edgesOfNode {e : BaseEdge} (st : BuildState)
    (params : BuildParams) (dict : StrMap String) (opNode : OpNode)
    (hmem : e ∈ edgesOfNode st params dict opNode) : e.v ≠ e.w := by
  unfold edgesOfNode at hmem
  obtain ⟨l, hl, hel⟩ := List.mem_flatten.mp hmem
  obtain ⟨p, _, rfl⟩ := List.mem_map.mp hl
  exact ne_vw_of_mem_edgesOfInput _ _ _ _ _ _ hel

/-- Claim C7: for every raw graph description and build parameters, every
edge of the built graph has a source name different from its destination
name (self-loops are dropped by `addEdgeToGraph`, which compares the
resolved source against the consumer's already-normalized name). -/
theorem build_no_self_loops (graphDef : GraphDef) (params : BuildParams)
    (e : BaseEdge) (hmem : e ∈ (build graphDef params).edges) : e.v ≠ e.w := by
  simp only [build] at hmem
  obtain ⟨l, hl, hel⟩ := List.mem_flatten.mp hmem
  obtain ⟨entry, _, rfl⟩ := List.mem_map.mp hl
  exact ne_vw_of_mem_edgesOfNode _ _ _ _ hel

/-- Claim C7, witness: applied to a two-node graph with one materialized
edge. -/
theorem build_no_self_loops_witness :
    ({ isControlDependency := false, isReferenceEdge := false,
       outputTensorKey := "0", v := "A", w := "B" } : BaseEdge).v ≠
      ({ isControlDependency := false, isReferenceEdge := false,
         outputTensorKey := "0", v := "A", w := "B" } : BaseEdge).w :=
  build_no_self_loops
    { node := [{ name := "A", op := "x" }, { name := "B", op := "y", input := ["A"] }] }
    {}
    { isControlDependency := false, isReferenceEdge := false,
      outputTensorKey := "0", v := "A", w := "B" }
    (by decide)

/-! ## Claims C8 and C10: the stats merger -/

lemma statsTotalBytes_nonpos (e : NodeExecStats) (allocs : List AllocatorMemoryUsed)
    (hmem : e.memory = some allocs) (h : ∀ a ∈ allocs, a.total_bytes ≤ 0) :
    statsTotalBytes e = 0 := by
  have general : ∀ (l : List AllocatorMemoryUsed) (acc : Int),
      (∀ a ∈ l, a.total_bytes ≤ 0) →
      l.foldl
        (fun acc alloc =>
          if alloc.total_bytes ≠ 0 then
            if alloc.total_bytes > 0 then acc + alloc.total_bytes else acc
          else acc)
        acc = acc := by
    intro l
    induction l with
    | nil => intro acc _; rfl
    | cons a rest ih =>
      intro acc hle
      have ha := hle a (List.mem_cons_self a rest)
      have hnotpos : ¬a.total_bytes > 0 := by omega
      simp only [List.foldl_cons]
      have hstep :
          (if a.total_bytes ≠ 0 then
            if a.total_bytes > 0 then acc + a.total_bytes else acc
          else acc) = acc := by
        simp [hnotpos]
      rw [hstep]
      exact ih acc (fun x hx => hle x (List.mem_cons_of_mem a hx))
  unfold statsTotalBytes
  rw [hmem]
  exact general allocs 0 h

lemma statsNodeUpdate_totalBytes (device : String)
    (outputSize : Option (List (List Int))) (e : NodeExecStats)
    (node : OpNodeFull) :
    statsBytes (some (statsNodeUpdate device 0 outputSize e node)) =
      statsBytes (some node) := by
  unfold statsNodeUpdate
  by_cases h1 : e.all_end_rel_micros ≠ 0
  · by_cases h2 : e.all_end_rel_micros > 0
    · cases hstats : node.stats with
      | none =>
        simp [h1, h2, hstats, setNodeStats, statsBytes,
          NodeStats.addBytesAllocation, NodeStats.addExecutionTime]
      | some s =>
        simp [h1, h2, hstats, setNodeStats, statsBytes,
          NodeStats.addBytesAllocation, NodeStats.addExecutionTime]
    · cases hstats : node.stats with
      | none =>
        simp [h1, h2, hstats, setNodeStats, statsBytes,
          NodeStats.addBytesAllocation]
      | some s =>
        simp [h1, h2, hstats, setNodeStats, statsBytes,
          NodeStats.addBytesAllocation]
  · cases hstats : node.stats with
    | none =>
      simp [h1, hstats, setNodeStats, statsBytes, NodeStats.addBytesAllocation]
    | some s =>
      simp [h1, hstats, setNodeStats, statsBytes, NodeStats.addBytesAllocation]

/-- Claim C8: in the stats merger, (1) a trace entry whose memory
allocations are all non-positive (such as a single `total_bytes = -5`
record) leaves every node's accumulated byte count unchanged, and (2) a
trace entry whose node name matches no graph node, neither exactly nor via
the strict-name fallback, leaves the graph - in particular its node map -
entirely unchanged. -/
theorem joinStats_negative_bytes_unknown_node (g : SlimGraph) (device : String)
    (e : NodeExecStats) :
    ((∀ allocs, e.memory = some allocs → (∀ a ∈ allocs, a.total_bytes ≤ 0) →
        ∀ n, statsBytes (findVal? (processNodeStats g device e).nodes n) =
          statsBytes (findVal? g.nodes n)) ∧
      (containsKey g.nodes e.node_name = false →
        containsKey g.nodes (getStrictName e.node_name) = false →
        processNodeStats g device e = g)) := by
  constructor
  · intro allocs hmem hle n
    have hbytes := statsTotalBytes_nonpos e allocs hmem hle
    simp only [processNodeStats]
    by_cases hfound : containsKey g.nodes (statLookupName g e.node_name) = true
    · rw [if_neg (by simp [hfound])]
      rw [hbytes]
      by_cases hn : statLookupName g e.node_name = n
      · subst hn
        simp only [findVal?_modifyKey_self]
        cases hv : findVal? g.nodes (statLookupName g e.node_name) with
        | none => rfl
        | some node =>
          exact statsNodeUpdate_totalBytes device _ e node
      · rw [findVal?_modifyKey_ne _ _ _ _ hn]
    · rw [if_pos (by simp [Bool.not_eq_true] at hfound ⊢; exact hfound)]
  · intro h1 h2
    simp [processNodeStats, statLookupName, h1, h2]

/-- Claim C8, witness: the `total_bytes = -5` entry leaves `X`'s byte count
unchanged, and the entry for the unknown node `Y` leaves the graph
unchanged. -/
theorem joinStats_negative_bytes_unknown_node_witness :
    (statsBytes
        (findVal? (processNodeStats statsWitnessGraph "d" statsWitnessEntryNeg).nodes "X") =
      statsBytes (findVal? statsWitnessGraph.nodes "X")) ∧
    processNodeStats statsWitnessGraph "d" statsWitnessEntryUnknown = statsWitnessGraph :=
  ⟨(joinStats_negative_bytes_unknown_node statsWitnessGraph "d" statsWitnessEntryNeg).1
      [{ total_bytes := -5 }] rfl (by decide) "X",
    (joinStats_negative_bytes_unknown_node statsWitnessGraph "d" statsWitnessEntryUnknown).2
      (by decide) (by decide)⟩

lemma containsKey_processNodeStats (g : SlimGraph) (d : String)
    (e : NodeExecStats) (x : String) :
    containsKey (processNodeStats g d e).nodes x = containsKey g.nodes x := by
  simp only [processNodeStats]
  split
  · rfl
  · exact containsKey_modifyKey _ _ _ _

lemma findVal?_processNodeStats_ne (g : SlimGraph) (d : String)
    (e : NodeExecStats) (n : String) (h : statLookupName g e.node_name ≠ n) :
    findVal? (processNodeStats g d e).nodes n = findVal? g.nodes n := by
  simp only [processNodeStats]
  split
  · rfl
  · exact findVal?_modifyKey_ne _ _ _ _ h

lemma containsKey_resetGraphStats (g : SlimGraph) (x : String) :
    containsKey (resetGraphStats g).nodes x = containsKey g.nodes x := by
  simp only [resetGraphStats, containsKey]
  rw [findVal?_mapPairs g.nodes (fun v => setNodeStats v none) x]
  cases findVal? g.nodes x <;> rfl

lemma resetGraphStats_stats_none (g : SlimGraph) (n : String)
    (nd : OpNodeFull) (h : findVal? (resetGraphStats g).nodes n = some nd) :
    nd.stats = none := by
  simp only [resetGraphStats] at h
  rw [findVal?_mapPairs g.nodes (fun v => setNodeStats v none) n] at h
  cases hv : findVal? g.nodes n with
  | none => rw [hv] at h; cases h
  | some orig =>
    rw [hv] at h
    cases h
    simp [setNodeStats]

lemma joinStats_fold_entries (g0 : SlimGraph) (n : String) (d : String) :
    ∀ (es : List NodeExecStats) (g : SlimGraph),
      (∀ x, containsKey g.nodes x = containsKey g0.nodes x) →
      (∀ e ∈ es, statLookupName g0 e.node_name ≠ n) →
      (∀ nd, findVal? g.nodes n = some nd → nd.stats = none) →
      (∀ x, containsKey
          ((es.foldl (fun g e => processNodeStats g d e) g)).nodes x =
            containsKey g0.nodes x) ∧
      (∀ nd, findVal?
          ((es.foldl (fun g e => processNodeStats g d e) g)).nodes n = some nd →
            nd.stats = none) := by
  intro es
  induction es with
  | nil => intro g hkeys _ hstats; exact ⟨hkeys, hstats⟩
  | cons e rest ih =>
    intro g hkeys hmatch hstats
    simp only [List.foldl_cons]
    apply ih
    · intro x; rw [containsKey_processNodeStats, hkeys]
    · intro e' he'; exact hmatch e' (List.mem_cons_of_mem e he')
    · intro nd hnd
      have hlook : statLookupName g e.node_name = statLookupName g0 e.node_name := by
        unfold statLookupName
        rw [hkeys]
      rw [findVal?_processNodeStats_ne g d e n
        (by rw [hlook]; exact hmatch e (List.mem_cons_self e rest))] at hnd
      exact hstats nd hnd

lemma joinStats_fold_devs (g0 : SlimGraph) (n : String)
    (devs : Option (StrMap Bool)) :
    ∀ (dss : List DevStats) (g : SlimGraph),
      (∀ x, containsKey g.nodes x = containsKey g0.nodes x) →
      (∀ ds ∈ dss, deviceIncluded devs ds.device = true →
        ∀ e ∈ ds.node_stats, statLookupName g0 e.node_name ≠ n) →
      (∀ nd, findVal? g.nodes n = some nd → nd.stats = none) →
      (∀ x, containsKey
          ((dss.foldl
            (fun g devStats =>
              if deviceIncluded devs devStats.device then
                devStats.node_stats.foldl
                  (fun g ns => processNodeStats g devStats.device ns) g
              else g) g)).nodes x = containsKey g0.nodes x) ∧
      (∀ nd, findVal?
          ((dss.foldl
            (fun g devStats =>
              if deviceIncluded devs devStats.device then
                devStats.node_stats.foldl
                  (fun g ns => processNodeStats g devStats.device ns) g
              else g) g)).nodes n = some nd → nd.stats = none) := by
  intro dss
  induction dss with
  | nil => intro g hkeys _ hstats; exact ⟨hkeys, hstats⟩
  | cons ds rest ih =>
    intro g hkeys hmatch hstats
    simp only [List.foldl_cons]
    by_cases hdev : deviceIncluded devs ds.device = true
    · rw [if_pos hdev]
      have inner := joinStats_fold_entries g0 n ds.device ds.node_stats g hkeys
        (fun e he => hmatch ds (List.mem_cons_self ds rest) hdev e he) hstats
      exact ih _ inner.1 (fun ds' hds' => hmatch ds' (List.mem_cons_of_mem ds hds')) inner.2
    · rw [if_neg hdev]
      exact ih g hkeys (fun ds' hds' => hmatch ds' (List.mem_cons_of_mem ds hds')) hstats

/-- Claim C10: `joinStatsInfoWithGraph` first clears every node's stats, so
a node that is matched by no device-allowed trace entry (under the exact or
strict-name resolution against the graph's key set) ends the merge with
`stats = null`, even if it carried stats from a previous merge. -/
theorem joinStats_clears_unmatched (graph : SlimGraph) (stats : StepStats)
    (devs : Option (StrMap Bool)) (n : String) (node : OpNodeFull)
    (hfind : findVal? (joinStatsInfoWithGraph graph stats devs).nodes n = some node)
    (hunmatched : ∀ ds ∈ stats.dev_stats, deviceIncluded devs ds.device = true →
      ∀ e ∈ ds.node_stats, statLookupName graph e.node_name ≠ n) :
    node.stats = none := by
  have base : ∀ x, containsKey (resetGraphStats graph).nodes x = containsKey graph.nodes x :=
    fun x => containsKey_resetGraphStats graph x
  have main := joinStats_fold_devs graph n devs stats.dev_stats
    (resetGraphStats graph) base hunmatched (resetGraphStats_stats_none graph n)
  simp only [joinStatsInfoWithGraph] at hfind
  exact main.2 node hfind

/-- Claim C10, witness: after merging a trace that matches nothing, the
stored node's previous stats are gone. -/
theorem joinStats_clears_unmatched_witness :
    ({ toOpNode :=
        { name := "X", op := "Op", device := "", attr := [], inputs := [],
          outputShapes := none, xlaCluster := none } } : OpNodeFull).stats = none :=
  joinStats_clears_unmatched c10WitnessGraph c10WitnessStats none "X"
    { toOpNode :=
        { name := "X", op := "Op", device := "", attr := [], inputs := [],
          outputShapes := none, xlaCluster := none } }
    (by decide) (by decide)

/-! ## Claim C9: building twice -/

/-- Claim C9, counterexample: the first `build` mutates the raw description
(splicing the consumed `_output_shapes` attribute), so the second run - which
receives the mutated description - yields a different node map: node `A`
keeps its extracted output shapes in the first result but has none in the
second. -/
theorem build_rerun_counterexample :
    build (buildMutation c9GraphDef) ({} : BuildParams) ≠ build c9GraphDef ({} : BuildParams) ∧
    (findVal? (build c9GraphDef ({} : BuildParams)).nodes "A").map
        (fun n => n.outputShapes) = some (some [some [some 2]]) ∧
    (findVal? (build (buildMutation c9GraphDef) ({} : BuildParams)).nodes "A").map
        (fun n => n.outputShapes) = some none := by
  refine ⟨?_, ?_, ?_⟩ <;> decide

/-- Claim C9 (amended): `build` is a deterministic function of the raw
description value: whenever the first run's in-place mutation of that object
(`buildMutation`) leaves the description unchanged, a second sequential run
produces an identical result.  In general the second run computes on the
mutated description and can differ, as the counterexample shows. -/
theorem build_rerun_amended (graphDef : GraphDef) (params : BuildParams)
    (h : buildMutation graphDef = graphDef) :
    build (buildMutation graphDef) params = build graphDef params := by
  rw [h]

/-- Claim C9, witness: on a description with no output-shape attributes and
no function library the mutation is trivial and the two runs agree. -/
theorem build_rerun_amended_witness :
    build (buildMutation { node := [{ name := "A", op := "x" }] }) ({} : BuildParams) =
      build { node := [{ name := "A", op := "x" }] } ({} : BuildParams) :=
  build_rerun_amended { node := [{ name := "A", op := "x" }] } {} (by decide)

/-! ## Claim C1: out-embedding rewiring -/

lemma findVal?_eq_none_of_containsKey_false {α : Type} (m : StrMap α)
    (k : String) (h : containsKey m k = false) : findVal? m k = none := by
  unfold containsKey at h
  cases hv : findVal? m k with
  | none => rfl
  | some v => simp [hv] at h

lemma outEmbStoreFinal_shape (st : BuildState) (dict : StrMap String)
    (s : String) (S : OpNode)
    (hS : findVal? st.outEmbedding s = some S) :
    ∃ nm, findVal? (outEmbStoreFinal st dict) s = some { S with name := nm } := by
  have aux : ∀ (keys : List String) (store : StrMap OpNode) (nm0 : String),
      findVal? store s = some { S with name := nm0 } →
      ∃ nm, findVal?
        (keys.foldl
          (fun store r =>
            modifyKey store r (fun n => { n with name := renameWith dict n.name }))
          store) s = some { S with name := nm } := by
    intro keys
    induction keys with
    | nil => intro store nm0 h; exact ⟨nm0, h⟩
    | cons r rest ih =>
      intro store nm0 h
      simp only [List.foldl_cons]
      by_cases hr : r = s
      · subst hr
        apply ih _ (renameWith dict nm0)
        rw [findVal?_modifyKey_self, h]
        rfl
      · apply ih _ nm0
        rw [findVal?_modifyKey_ne _ _ _ _ hr]
        exact h
  unfold outEmbStoreFinal
  exact aux _ st.outEmbedding S.name (by rw [hS])

/-- Claim C1 (amended): let `S` be the out-embedding registered under name
`s` (and not registered as an in-embedding), let `N` be a main node whose
input at position `i` references `s`, and let `e` be any of `S`'s own
inputs.  Provided the resolved source of `e` differs from `N`'s resolved
name (otherwise the edge is a dropped self-loop), the built graph contains
the direct edge from `e`'s resolved source to `N` whose slot and
control-dependency flag are copied from `inp`, the input of `N` referring to
`S` - not from `S`'s original input - and whose reference-edge flag is
looked up under the consumer `N`'s op and input position `i`.  Provided no
main node resolves to the name `s`, `s` is not a key of the final node map.
And for every main node `M` on which `S` is registered as a dependent
out-embedding, `S` (up to the rename applied to its own name field) appears
in `M`'s out-embedding list, provided the resolved main-node names are
pairwise distinct. -/
theorem build_out_embedding_rewiring_amended
    (graphDef : GraphDef) (params : BuildParams) (s : String)
    (S N M : OpNode) (i : Nat) (inp e : NormalizedInput)
    (hS : findVal? (phase1 graphDef params).outEmbedding s = some S)
    (hSnotIn : containsKey (phase1 graphDef params).inEmbedding s = false)
    (hN : N ∈ (phase1 graphDef params).opNodes)
    (hInp : (i, inp) ∈ N.inputs.enum)
    (hInpName : inp.name = s)
    (hE : e ∈ S.inputs)
    (hNoLoop : renameWith (buildDict graphDef params) e.name ≠
      renameWith (buildDict graphDef params) N.name)
    (hNoMainS : ∀ m ∈ (phase1 graphDef params).opNodes,
      renameWith (buildDict graphDef params) m.name ≠ s)
    (hM : M ∈ (phase1 graphDef params).opNodes)
    (hUniq : ((phase1 graphDef params).opNodes.map
      (fun m => renameWith (buildDict graphDef params) m.name)).Nodup)
    (hReg : s ∈ (findVal? (phase1 graphDef params).outEmbeddings M.name).getD []) :
    ({ isControlDependency := inp.isControlDependency
       isReferenceEdge := (findVal? params.refEdges (N.op ++ " " ++ toString i)).getD false
       outputTensorKey := inp.outputTensorKey
       v := renameWith (buildDict graphDef params) e.name
       w := renameWith (buildDict graphDef params) N.name } : BaseEdge)
        ∈ (build graphDef params).edges ∧
    findVal? (build graphDef params).nodes s = none ∧
    (∃ Mfull, findVal? (build graphDef params).nodes
        (renameWith (buildDict graphDef params) M.name) = some Mfull ∧
      ∃ emb ∈ Mfull.outEmbeddings, emb = { S with name := emb.name }) := by
  refine ⟨?_, ?_, ?_⟩
  · simp only [build]
    apply List.mem_flatten.mpr
    refine ⟨edgesOfNode (phase1 graphDef params) params (buildDict graphDef params)
        ((nodeEntry (phase1 graphDef params) (buildDict graphDef params) N).2.1), ?_, ?_⟩
    · exact List.mem_map.mpr
        ⟨nodeEntry (phase1 graphDef params) (buildDict graphDef params) N,
          List.mem_map.mpr ⟨N, hN, rfl⟩, rfl⟩
    · unfold edgesOfNode
      apply List.mem_flatten.mpr
      refine ⟨edgesOfInput (phase1 graphDef params) params (buildDict graphDef params)
          ((nodeEntry (phase1 graphDef params) (buildDict graphDef params) N).2.1) i inp,
        List.mem_map.mpr ⟨(i, inp), hInp, rfl⟩, ?_⟩
      have hnone : findVal? (phase1 graphDef params).inEmbedding s = none :=
        findVal?_eq_none_of_containsKey_false _ _ hSnotIn
      simp only [edgesOfInput, hInpName, hnone, hS]
      apply List.mem_flatten.mpr
      refine ⟨addEdgeToGraph (renameWith (buildDict graphDef params) e.name)
          ((nodeEntry (phase1 graphDef params) (buildDict graphDef params) N).2.1)
          inp params i,
        List.mem_map.mpr ⟨e, hE, rfl⟩, ?_⟩
      have hname : (nodeEntry (phase1 graphDef params) (buildDict graphDef params) N).2.1.name
          = renameWith (buildDict graphDef params) N.name := rfl
      have hop : (nodeEntry (phase1 graphDef params) (buildDict graphDef params) N).2.1.op
          = N.op := rfl
      unfold addEdgeToGraph
      rw [hname, hop, if_neg hNoLoop]
      exact List.mem_singleton.mpr rfl
  · simp only [build]
    rw [List.map_map]
    rw [findVal?_foldl_insert_of_ne _ s _ ?_]
    · rfl
    · intro p hp
      obtain ⟨m, hm, rfl⟩ := List.mem_map.mp hp
      exact hNoMainS m hm
  · simp only [build]
    rw [List.map_map]
    refine ⟨(materializeNode (phase1 graphDef params) (buildDict graphDef params)
        (nodeEntry (phase1 graphDef params) (buildDict graphDef params) M)).2, ?_, ?_⟩
    · apply findVal?_foldl_insert_of_mem
      · exact List.mem_map.mpr ⟨M, hM, rfl⟩
      · rw [List.map_map]
        exact hUniq
    · obtain ⟨nm, hnm⟩ := outEmbStoreFinal_shape (phase1 graphDef params)
        (buildDict graphDef params) s S hS
      refine ⟨{ S with name := nm }, ?_, rfl⟩
      exact List.mem_filterMap.mpr ⟨s, hReg, hnm⟩

/-- Claim C1, counterexample: the single materialized edge `M → N` carries
the flags of `N`'s input referring to `S` (no control dependency, reference
lookup under `Op 0`), not the flags of `S`'s original input from `M` (a
control dependency, reference lookup under `Summary 0`): neither edge
variant with the claimed copied flags exists. -/
theorem build_out_embedding_rewiring_counterexample :
    (build c1GraphDef c1Params).edges =
      [{ isControlDependency := false, isReferenceEdge := false,
         outputTensorKey := "0", v := "M", w := "N" }] ∧
    ({ isControlDependency := true, isReferenceEdge := true,
       outputTensorKey := "0", v := "M", w := "N" } : BaseEdge) ∉
        (build c1GraphDef c1Params).edges ∧
    ({ isControlDependency := true, isReferenceEdge := false,
       outputTensorKey := "0", v := "M", w := "N" } : BaseEdge) ∉
        (build c1GraphDef c1Params).edges := by
  refine ⟨?_, ?_, ?_⟩ <;> decide

/-- Claim C1, witness: in the concrete scenario the direct edge `M → N`
carrying `N`'s input flags is materialized, `S` is no node-map key, and `S`
appears in `M`'s out-embedding list. -/
theorem build_out_embedding_rewiring_witness :
    (({ isControlDependency := false, isReferenceEdge := false,
        outputTensorKey := "0", v := "M", w := "N" } : BaseEdge) ∈
          (build c1GraphDef c1Params).edges) ∧
    findVal? (build c1GraphDef c1Params).nodes "S" = none ∧
    (∃ Mfull, findVal? (build c1GraphDef c1Params).nodes "M" = some Mfull ∧
      ∃ emb ∈ Mfull.outEmbeddings, emb = { c1SNode with name := emb.name }) :=
  build_out_embedding_rewiring_amended c1GraphDef c1Params "S"
    c1SNode c1NNode c1MNode 0
    { name := "S", outputTensorKey := "0", isControlDependency := false }
    { name := "M", outputTensorKey := "0", isControlDependency := true }
    (by decide) (by decide) (by decide) (by decide) (by decide) (by decide)
    (by decide) (by decide) (by decide) (by decide) (by decide)
